import Mathlib

/-!
# tprint: in-place terminal status display

A shallow embedding of `tprint.go`.  The `Logger` struct is a record of its
three data fields; the stop channel and the wait group appear in the model of
the repaint task (`Sys`), the mutex in the model of concurrent goroutines
(`CSys`), where they are explicit state.

* Go strings are `String`; a Go `[]string` is a `List String`.
* Go `int` arguments are `Int`.
* Operations that can panic in Go (slice index, slice expression, closing a
  closed channel) return `Option`; `none` is the panic.
* Terminal output is the list of strings handed to standard output, one entry
  per operand of `fmt.Print` and one per `fmt.Println` call.
* In `CSys` every statement of `Log`, `UpdateLine` and of the tick is a step
  of its own, the scheduler picks the goroutine that moves next, and
  `l.mu.Lock()` is the only step that looks at the mutex.
-/

namespace Tprint

/-! ## Data model -/

/-- The data fields of the Go struct `Logger`. -/
structure Logger where
  separator : String
  lines : List String
  logMessages : List String
  deriving DecidableEq, Repr

/-! ## Go built-ins used by the source -/

/-- Go `make([]string, n)`: `n` zero values. -/
def makeStrings (n : Nat) : List String := List.replicate n ""

/-- Go `copy(dst, src)`: overwrites the first `min (len dst) (len src)` elements of `dst`. -/
def copySlice (dst src : List String) : List String :=
  src.take (min dst.length src.length) ++ dst.drop (min dst.length src.length)

/-- Go `s[:n]`: panics when `n` exceeds the length of `s`. -/
def sliceTo (s : List String) (n : Nat) : Option (List String) :=
  if n ≤ s.length then some (s.take n) else none

/-- Go `s[i] = v` for an `int` index: panics when `i` is negative or not below `len s`. -/
def setIndex (s : List String) (i : Int) (v : String) : Option (List String) :=
  if 0 ≤ i ∧ i < (s.length : Int) then some (s.set i.toNat v) else none

/-- Go `fmt.Print` applied to string operands: the operands, with nothing between them. -/
def fmtPrint (args : List String) : List String := args

/-- Go `fmt.Println` applied to one string: the string followed by a newline. -/
def fmtPrintln (a : String) : List String := [a ++ "\n"]

/-- The text a sequence of terminal writes puts on the terminal. -/
def text (ws : List String) : String := ws.foldr (fun w acc => w ++ acc) ""

/-! ## Constants of `updateConsole` -/

/-- Go constant `clearScreen`, written `"\033[2J"` in the source. -/
def clearScreen : String := "\x1b[2J"

/-- Go constant `moveToTop`, written `"\033[H"` in the source. -/
def moveToTop : String := "\x1b[H"

/-- Go constant `hideCursor`, written `"\033[?25l"` in the source. -/
def hideCursor : String := "\x1b[?25l"

/-- Go constant `showCursor`, written `"\033[?25h"` in the source. -/
def showCursor : String := "\x1b[?25h"

/-! ## Constructor and mutators -/

/-- Data part of `NewLogger`: the struct literal followed by `copy(logger.lines, topLines)`. -/
def NewLogger (separator : String) (topLines : List String) : Logger :=
  let logger : Logger :=
    { separator := separator
      lines := makeStrings topLines.length
      logMessages := makeStrings 0 }
  { logger with lines := copySlice logger.lines topLines }

/-- Go `Logger.Log`: prepend, then cut back to 10 entries when longer. -/
def Logger.Log (l : Logger) (message : String) : Option Logger :=
  let l1 : Logger := { l with logMessages := [message] ++ l.logMessages }
  if l1.logMessages.length > 10 then
    (sliceTo l1.logMessages 10).map (fun t => { l1 with logMessages := t })
  else
    some l1

/-- Go `Logger.UpdateLine`: guarded assignment to `l.lines[lineNumber-1]`. -/
def Logger.UpdateLine (l : Logger) (lineNumber : Int) (content : String) : Option Logger :=
  if lineNumber > 0 ∧ lineNumber ≤ (l.lines.length : Int) then
    (setIndex l.lines (lineNumber - 1) content).map (fun ls => { l with lines := ls })
  else
    some l

/-! ## Repaint -/

/-- Go `for _, x := range xs { fmt.Println(x) }`, appending to the writes made so far. -/
def rangePrintln (out : List String) (xs : List String) : List String :=
  xs.foldl (fun acc x => acc ++ fmtPrintln x) out

/-- The `case <-ticker.C` branch of `updateConsole`: the writes of one tick, in order. -/
def tickWrites (l : Logger) : List String :=
  let out := fmtPrint [moveToTop]
  let out := rangePrintln out l.lines
  let out := out ++ fmtPrintln l.separator
  rangePrintln out l.logMessages

/-- One tick of the repaint task: the state after the tick and what was written. -/
def tick (l : Logger) : Logger × List String := (l, tickWrites l)

/-- The number of `fmt.Println` calls of one tick: the entries of a frame. -/
def frameEntries (l : Logger) : Nat := (tickWrites l).length - (fmtPrint [moveToTop]).length

/-! ## Sequential use: calls and ticks on one controller -/

/-- A call on the controller, or one tick of its repaint task. -/
inductive Op where
  | log (message : String)
  | updateLine (lineNumber : Int) (content : String)
  | tick
  deriving DecidableEq, Repr

/-- The effect of one operation on the data state. -/
def applyOp (l : Logger) : Op → Option Logger
  | .log m => l.Log m
  | .updateLine n c => l.UpdateLine n c
  | .tick => some (tick l).1

/-- A finite sequence of operations, stopping at the first panic. -/
def applyOps (l : Logger) : List Op → Option Logger
  | [] => some l
  | op :: ops => (applyOp l op).bind (fun l1 => applyOps l1 ops)

/-- Calling `Log` on each message in order. -/
def logAll (l : Logger) : List String → Option Logger
  | [] => some l
  | m :: ms => (l.Log m).bind (fun l1 => logAll l1 ms)

/-! ## The repaint task as a transition system -/

/-- Where the goroutine running `updateConsole` is. -/
inductive Phase where
  | notStarted
  | running
  | exited
  deriving DecidableEq, Repr

/-- The controller together with its repaint task and the terminal. -/
structure Sys where
  logger : Logger
  phase : Phase
  stopClosed : Bool
  wg : Nat
  stopReturned : Bool
  out : List String
  deriving DecidableEq, Repr

/-- The steps of the system.  `start`, `tick` and `stop` are steps of `updateConsole`;
`closeStop` and `waitReturn` are the two statements of `Stop`. -/
inductive Event where
  | start
  | tick
  | stop
  | log (message : String)
  | updateLine (lineNumber : Int) (content : String)
  | closeStop
  | waitReturn
  deriving DecidableEq, Repr

/-- The system `NewLogger` leaves behind: `wg.Add(1)` done, the goroutine spawned. -/
def Sys.new (separator : String) (topLines : List String) : Sys :=
  { logger := NewLogger separator topLines
    phase := .notStarted
    stopClosed := false
    wg := 0 + 1
    stopReturned := false
    out := [] }

/-- One step; `none` when the step is not enabled or panics. -/
def step (s : Sys) : Event → Option Sys
  | .start =>
    if s.phase = .notStarted then
      some { s with phase := .running, out := s.out ++ fmtPrint [clearScreen, hideCursor] }
    else none
  | .tick =>
    if s.phase = .running then
      some { s with logger := (tick s.logger).1, out := s.out ++ (tick s.logger).2 }
    else none
  | .stop =>
    if s.phase = .running ∧ s.stopClosed = true then
      some { s with phase := .exited, out := s.out ++ fmtPrint [showCursor], wg := s.wg - 1 }
    else none
  | .log m => (s.logger.Log m).map (fun l => { s with logger := l })
  | .updateLine n c => (s.logger.UpdateLine n c).map (fun l => { s with logger := l })
  | .closeStop =>
    if s.stopClosed = true then none else some { s with stopClosed := true }
  | .waitReturn =>
    if s.stopClosed = true ∧ s.wg = 0 then some { s with stopReturned := true } else none

/-- A run: a finite sequence of steps. -/
def exec (s : Sys) : List Event → Option Sys
  | [] => some s
  | e :: es => (step s e).bind (fun s1 => exec s1 es)

/-! ## Concurrent callers, the repaint task and the mutex -/

/-- A call a producer goroutine makes on the controller. -/
inductive Call where
  | log (message : String)
  | updateLine (lineNumber : Int) (content : String)
  deriving DecidableEq, Repr

/-- The call run on its own, from lock to unlock. -/
def Call.run (l : Logger) : Call → Option Logger
  | .log m => l.Log m
  | .updateLine n c => l.UpdateLine n c

/-- A sequence of calls run one after the other. -/
def replay (l : Logger) : List Call → Option Logger
  | [] => some l
  | c :: cs => (c.run l).bind (fun l1 => replay l1 cs)

/-- A goroutine: producer number `t`, or the repaint task. -/
inductive Tid where
  | caller (t : Nat)
  | painter
  deriving DecidableEq, Repr

/-- Where a producer is inside the call at the head of its program.
`locked`: after `l.mu.Lock()`; `store`: the right-hand side of the assignment of `Log` is
evaluated; `check`: the assignment is done; `unlock`: at the deferred `l.mu.Unlock()`. -/
inductive CPc where
  | idle
  | locked
  | store
  | check
  | unlock
  deriving DecidableEq, Repr

/-- A producer goroutine: the calls it still has to make (the head is the one in progress),
its position, and the slice value it has built. -/
structure Caller where
  prog : List Call
  pc : CPc
  tmp : List String
  deriving DecidableEq, Repr

/-- Where the repaint task is inside one tick. -/
inductive PPc where
  | idle
  | home
  | lines
  | sep
  | msgs
  | unlock
  deriving DecidableEq, Repr

/-- The repaint task inside a tick: position, loop index, loop bound, the slice value the
second `range` iterates over, and the writes of the tick so far. -/
structure Painter where
  pc : PPc
  i : Nat
  n : Nat
  snap : List String
  buf : List String
  deriving DecidableEq, Repr

/-- The shared fields, the mutex, the goroutines and the frames written so far.
`done` records the finished calls in the order of their unlocks. -/
structure CSys where
  logger : Logger
  mu : Option Tid
  callers : List Caller
  painter : Painter
  framesOut : List (List String)
  done : List (Nat × Call)
  deriving DecidableEq, Repr

/-- The controller after `NewLogger`, with one producer per program, all before their
first call, and the repaint task between ticks. -/
def CSys.new (separator : String) (topLines : List String) (progs : List (List Call)) : CSys :=
  { logger := NewLogger separator topLines
    mu := none
    callers := progs.map (fun p => { prog := p, pc := .idle, tmp := [] })
    painter := { pc := .idle, i := 0, n := 0, snap := [], buf := [] }
    framesOut := []
    done := [] }

/-- The next statement of producer `t`, whose state is `th`.  `none`: blocked on the mutex,
finished, or a panic. -/
def callerStep (s : CSys) (t : Nat) (th : Caller) : Option CSys :=
  match th.pc, th.prog with
  | _, [] => none
  | .idle, _ :: _ =>
    if s.mu = none then
      some { s with mu := some (.caller t), callers := s.callers.set t { th with pc := .locked } }
    else none
  | .locked, .log m :: _ =>
    some { s with
      callers := s.callers.set t { th with pc := .store, tmp := [m] ++ s.logger.logMessages } }
  | .locked, .updateLine n c :: _ =>
    if n > 0 ∧ n ≤ (s.logger.lines.length : Int) then
      (setIndex s.logger.lines (n - 1) c).map (fun ls =>
        { s with
          logger := { s.logger with lines := ls }
          callers := s.callers.set t { th with pc := .unlock } })
    else
      some { s with callers := s.callers.set t { th with pc := .unlock } }
  | .store, _ :: _ =>
    some { s with
      logger := { s.logger with logMessages := th.tmp }
      callers := s.callers.set t { th with pc := .check } }
  | .check, _ :: _ =>
    if s.logger.logMessages.length > 10 then
      (sliceTo s.logger.logMessages 10).map (fun tl =>
        { s with
          logger := { s.logger with logMessages := tl }
          callers := s.callers.set t { th with pc := .unlock } })
    else
      some { s with callers := s.callers.set t { th with pc := .unlock } }
  | .unlock, c :: rest =>
    if s.mu = none then none
    else
      some { s with
        mu := none
        callers := s.callers.set t { th with prog := rest, pc := .idle }
        done := s.done ++ [(t, c)] }

/-- The next statement of the repaint task inside the `case <-ticker.C` branch. -/
def painterStep (s : CSys) : Option CSys :=
  let p := s.painter
  match p.pc with
  | .idle =>
    if s.mu = none then
      some { s with mu := some .painter, painter := { p with pc := .home, buf := [] } }
    else none
  | .home =>
    some { s with
      painter := { p with
        pc := .lines, buf := p.buf ++ fmtPrint [moveToTop], i := 0, n := s.logger.lines.length } }
  | .lines =>
    if p.i < p.n then
      (s.logger.lines[p.i]?).map (fun line =>
        { s with painter := { p with buf := p.buf ++ fmtPrintln line, i := p.i + 1 } })
    else
      some { s with painter := { p with pc := .sep } }
  | .sep =>
    some { s with
      painter := { p with
        pc := .msgs, buf := p.buf ++ fmtPrintln s.logger.separator, i := 0
        snap := s.logger.logMessages } }
  | .msgs =>
    match p.snap[p.i]? with
    | some msg => some { s with painter := { p with buf := p.buf ++ fmtPrintln msg, i := p.i + 1 } }
    | none => some { s with painter := { p with pc := .unlock } }
  | .unlock =>
    if s.mu = none then none
    else
      some { s with
        mu := none
        painter := { p with pc := .idle }
        framesOut := s.framesOut ++ [p.buf] }

/-- One step of the goroutine the scheduler picks. -/
def cstep (s : CSys) : Tid → Option CSys
  | .caller t =>
    match s.callers[t]? with
    | none => none
    | some th => callerStep s t th
  | .painter => painterStep s

/-- A schedule: the goroutines in the order in which they take their steps. -/
def cexec (s : CSys) : List Tid → Option CSys
  | [] => some s
  | t :: ts => (cstep s t).bind (fun s1 => cexec s1 ts)

/-- How the shared fields `l` relate to the result `base` of the finished calls, seen from a
producer in the middle of a call. -/
def CallerOK (base l : Logger) (th : Caller) : Prop :=
  match th.pc with
  | .idle => True
  | .locked => th.prog ≠ [] ∧ l = base
  | .store => ∃ m rest, th.prog = .log m :: rest ∧ l = base ∧ th.tmp = m :: base.logMessages
  | .check => ∃ m rest, th.prog = .log m :: rest
      ∧ l = { base with logMessages := m :: base.logMessages }
  | .unlock => ∃ c rest, th.prog = c :: rest ∧ c.run base = some l

/-- How the writes of the tick in progress relate to the result `base` of the finished calls. -/
def PainterOK (base l : Logger) (p : Painter) : Prop :=
  match p.pc with
  | .idle => True
  | .home => l = base ∧ p.buf = []
  | .lines => l = base ∧ p.n = base.lines.length
      ∧ p.buf = moveToTop :: (base.lines.take p.i).map (fun x => x ++ "\n")
  | .sep => l = base ∧ p.buf = moveToTop :: base.lines.map (fun x => x ++ "\n")
  | .msgs => l = base ∧ p.snap = base.logMessages
      ∧ p.buf = moveToTop :: (base.lines.map (fun x => x ++ "\n")
          ++ (base.separator ++ "\n") :: (p.snap.take p.i).map (fun x => x ++ "\n"))
  | .unlock => l = base ∧ p.buf = tickWrites base

/-- What holds in every state of every schedule; `base` is the result of running the finished
calls one after the other, in the order of `done`, on the state `l0` that `NewLogger` built. -/
structure CInv (l0 : Logger) (progs : List (List Call)) (s : CSys) (base : Logger) : Prop where
  replayed : replay l0 (s.done.map Prod.snd) = some base
  ownC : ∀ (t : Nat) (th : Caller), s.callers[t]? = some th → th.pc ≠ .idle → s.mu = some (.caller t)
  ownP : s.painter.pc ≠ .idle → s.mu = some .painter
  quiet : (∀ (t : Nat) (th : Caller), s.callers[t]? = some th → th.pc = .idle) → s.logger = base
  callerOK : ∀ (t : Nat) (th : Caller), s.callers[t]? = some th → CallerOK base s.logger th
  painterOK : PainterOK base s.logger s.painter
  framesOK : ∀ f ∈ s.framesOut, ∃ (k : Nat) (lk : Logger), k ≤ s.done.length
    ∧ replay l0 ((s.done.take k).map Prod.snd) = some lk ∧ f = tickWrites lk
  len : s.callers.length = progs.length
  order : ∀ (t : Nat) (th : Caller), s.callers[t]? = some th →
    progs[t]? = some ((s.done.filter (fun e => e.1 = t)).map Prod.snd ++ th.prog)
  tids : ∀ e ∈ s.done, e.1 < progs.length
  count : s.done.length + (s.callers.map (fun th => th.prog.length)).sum
    = (progs.map List.length).sum

/-- The escape character that opens every control sequence. -/
def esc : Char := '\x1b'

/-- The character sequence `c` occurs somewhere in the text `t`. -/
def occursIn (c t : String) : Prop := c.data <:+: t.data

/-- The state kept by every call and tick: at most 10 tail entries. -/
def TailBounded (l : Logger) : Prop := l.logMessages.length ≤ 10

/-- The writes of a sequence of ticks, one frame per snapshot of the state. -/
def frames (snaps : List Logger) : List String := (snaps.map tickWrites).flatten

/-- What holds of the task in every state of every run. -/
def TaskInv (s : Sys) : Prop :=
  match s.phase with
  | .notStarted => s.out = [] ∧ s.wg = 1 ∧ s.stopReturned = false
  | .running =>
    (∃ snaps, s.out = clearScreen :: hideCursor :: frames snaps) ∧ s.wg = 1
      ∧ s.stopReturned = false
  | .exited => (∃ snaps, s.out = clearScreen :: hideCursor :: (frames snaps ++ [showCursor]))
      ∧ s.wg = 0

/-! ## Basic facts about the mutators -/

theorem Log_eq (l : Logger) (m : String) :
    l.Log m = some { l with logMessages := (m :: l.logMessages).take 10 } := by
  unfold Logger.Log sliceTo
  by_cases h : (m :: l.logMessages).length > 10
  · have h10 : 10 ≤ (m :: l.logMessages).length := Nat.le_of_lt h
    simp only [List.singleton_append, h, h10, if_true, Option.map_some']
  · have hle : (m :: l.logMessages).length ≤ 10 := Nat.le_of_not_gt h
    simp only [List.singleton_append, h, if_false, List.take_of_length_le hle]

theorem UpdateLine_inRange (l : Logger) (n : Int) (c : String)
    (h1 : 1 ≤ n) (h2 : n ≤ (l.lines.length : Int)) :
    l.UpdateLine n c = some { l with lines := l.lines.set (n - 1).toNat c } := by
  unfold Logger.UpdateLine setIndex
  have hg : n > 0 ∧ n ≤ (l.lines.length : Int) := ⟨by omega, h2⟩
  have hi : 0 ≤ n - 1 ∧ n - 1 < (l.lines.length : Int) := ⟨by omega, by omega⟩
  simp only [hg, hi, and_self, if_true, Option.map_some']

theorem UpdateLine_outOfRange (l : Logger) (n : Int) (c : String)
    (h : n ≤ 0 ∨ n > (l.lines.length : Int)) :
    l.UpdateLine n c = some l := by
  unfold Logger.UpdateLine
  have hg : ¬ (n > 0 ∧ n ≤ (l.lines.length : Int)) := by omega
  simp only [hg, if_false]

theorem UpdateLine_shape (l : Logger) (n : Int) (c : String) :
    ∃ ls, l.UpdateLine n c = some { l with lines := ls } ∧ ls.length = l.lines.length := by
  by_cases h : 1 ≤ n ∧ n ≤ (l.lines.length : Int)
  · exact ⟨_, UpdateLine_inRange l n c h.1 h.2, by simp⟩
  · exact ⟨l.lines, UpdateLine_outOfRange l n c (by omega), rfl⟩

theorem NewLogger_eq (separator : String) (topLines : List String) :
    NewLogger separator topLines
      = { separator := separator, lines := topLines, logMessages := [] } := by
  simp [NewLogger, makeStrings, copySlice]

/-! ## Basic facts about a repaint -/

theorem rangePrintln_eq (out xs : List String) :
    rangePrintln out xs = out ++ xs.map (fun x => x ++ "\n") := by
  unfold rangePrintln
  induction xs generalizing out with
  | nil => simp
  | cons x xs ih =>
    rw [List.foldl_cons, ih]
    simp [fmtPrintln]

theorem tickWrites_eq (l : Logger) :
    tickWrites l
      = moveToTop :: (l.lines.map (fun x => x ++ "\n")
          ++ (l.separator ++ "\n") :: l.logMessages.map (fun x => x ++ "\n")) := by
  simp [tickWrites, rangePrintln_eq, fmtPrint, fmtPrintln]

theorem frameEntries_eq (l : Logger) :
    frameEntries l = l.lines.length + 1 + l.logMessages.length := by
  simp [frameEntries, tickWrites_eq, fmtPrint]
  omega

theorem text_append (a b : List String) : text (a ++ b) = text a ++ text b := by
  induction a with
  | nil => simp [text]
  | cons x xs ih =>
    have h : text (x :: (xs ++ b)) = x ++ text (xs ++ b) := rfl
    have h2 : text (x :: xs) = x ++ text xs := rfl
    rw [List.cons_append, h, ih, h2, String.append_assoc]

/-! ## Sequences of calls -/

theorem take_ten_append_take (a b : List String) :
    (a ++ b.take 10).take 10 = (a ++ b).take 10 := by
  rw [List.take_append_eq_append_take, List.take_append_eq_append_take, List.take_take]
  congr 2
  omega

theorem logAll_eq (l : Logger) (ms : List String) (h : l.logMessages.length ≤ 10) :
    logAll l ms = some { l with logMessages := (ms.reverse ++ l.logMessages).take 10 } := by
  induction ms generalizing l with
  | nil => simp [logAll, List.take_of_length_le h]
  | cons m ms ih =>
    have hlen : ((m :: l.logMessages).take 10).length ≤ 10 := by
      rw [List.length_take]; exact Nat.min_le_left _ _
    rw [logAll, Log_eq, Option.some_bind, ih _ hlen]
    have := take_ten_append_take ms.reverse (m :: l.logMessages)
    simp only [List.reverse_cons, List.append_assoc, List.singleton_append]
    rw [this]

theorem reverse_take_eq_drop_reverse (ms : List String) (k : Nat) :
    ms.reverse.take k = (ms.drop (ms.length - k)).reverse := by
  rw [List.reverse_drop]
  by_cases h : k ≤ ms.length
  · congr 1
    omega
  · have h1 : ms.length - (ms.length - k) = ms.length := by omega
    rw [h1, List.take_of_length_le (by simp; omega), List.take_of_length_le (by simp)]

theorem applyOp_spec (l : Logger) (op : Op) (h : TailBounded l) :
    ∃ l1, applyOp l op = some l1 ∧ TailBounded l1 ∧ l1.lines.length = l.lines.length
      ∧ l1.separator = l.separator ∧ l.logMessages.length ≤ l1.logMessages.length := by
  cases op with
  | log m =>
    refine ⟨_, Log_eq l m, ?_, rfl, rfl, ?_⟩
    · simp only [TailBounded, List.length_take]; exact Nat.min_le_left _ _
    · unfold TailBounded at h
      simp only [List.length_take, List.length_cons]
      omega
  | updateLine n c =>
    obtain ⟨ls, hs, hl⟩ := UpdateLine_shape l n c
    exact ⟨_, hs, h, hl, rfl, Nat.le_refl _⟩
  | tick => exact ⟨l, rfl, h, rfl, rfl, Nat.le_refl _⟩

theorem applyOps_spec (l : Logger) (ops : List Op) (h : TailBounded l) :
    ∃ l1, applyOps l ops = some l1 ∧ TailBounded l1 ∧ l1.lines.length = l.lines.length
      ∧ l1.separator = l.separator ∧ l.logMessages.length ≤ l1.logMessages.length := by
  induction ops generalizing l with
  | nil => exact ⟨l, rfl, h, rfl, rfl, Nat.le_refl _⟩
  | cons op ops ih =>
    obtain ⟨l1, h1, hb1, hl1, hs1, hm1⟩ := applyOp_spec l op h
    obtain ⟨l2, h2, hb2, hl2, hs2, hm2⟩ := ih l1 hb1
    refine ⟨l2, ?_, hb2, hl2.trans hl1, hs2.trans hs1, Nat.le_trans hm1 hm2⟩
    rw [applyOps, h1, Option.some_bind, h2]

theorem NewLogger_tailBounded (separator : String) (topLines : List String) :
    TailBounded (NewLogger separator topLines) := by
  rw [NewLogger_eq]; exact Nat.zero_le _

/-! ## Claims about the mutators and the constructor -/

/-- C1: for every state and message, `Log` succeeds and leaves the tail equal to the first 10
entries of the message followed by the previous tail; the message is at the front, the previous
entries follow in order, nothing is dropped while the previous tail has fewer than 10 entries,
and the header lines and the separator are unchanged. -/
theorem C1_log_prepends_and_caps (l : Logger) (m : String) :
    ∃ l1, l.Log m = some l1
      ∧ l1.logMessages = (m :: l.logMessages).take 10
      ∧ l1.logMessages = m :: l.logMessages.take 9
      ∧ l1.logMessages = (if l.logMessages.length < 10 then m :: l.logMessages
          else m :: l.logMessages.take 9)
      ∧ l1.lines = l.lines
      ∧ l1.separator = l.separator := by
  refine ⟨_, Log_eq l m, rfl, rfl, ?_, rfl, rfl⟩
  by_cases h : l.logMessages.length < 10
  · simp only [h, if_true, List.take_succ_cons]
    rw [List.take_of_length_le (by omega)]
  · simp only [h, if_false, List.take_succ_cons]

/-- C2: logging the messages `ms` in order on a freshly constructed controller succeeds and
leaves the tail equal to the first 10 entries of the reverse of `ms`, that is the most recent
10 messages (all of them when there are at most 10), most recent first; appending an 11th
message to 10 evicts exactly the oldest one. -/
theorem C2_log_sequence_keeps_latest_ten (separator : String) (topLines ms : List String) :
    ∃ l, logAll (NewLogger separator topLines) ms = some l
      ∧ l.logMessages = ms.reverse.take 10
      ∧ l.logMessages = (ms.drop (ms.length - 10)).reverse
      ∧ l.logMessages.length = min ms.length 10
      ∧ (ms.length ≤ 10 → l.logMessages = ms.reverse)
      ∧ (∀ oldest rest newest, rest.length = 9 → ms = oldest :: rest ++ [newest] →
          l.logMessages = newest :: rest.reverse) := by
  have h := logAll_eq (NewLogger separator topLines) ms (NewLogger_tailBounded _ _)
  refine ⟨_, h, ?_, ?_, ?_, ?_, ?_⟩
  · simp [NewLogger_eq]
  · simp only [NewLogger_eq, List.append_nil]
    exact reverse_take_eq_drop_reverse ms 10
  · simp only [NewLogger_eq, List.append_nil, List.length_take, List.length_reverse]
    omega
  · intro hle
    simp only [NewLogger_eq, List.append_nil]
    exact List.take_of_length_le (by simpa using hle)
  · intro oldest rest newest hr hms
    subst hms
    simp only [NewLogger_eq, List.append_nil, List.reverse_cons, List.reverse_append,
      List.reverse_nil, List.nil_append, List.singleton_append, List.cons_append,
      List.take_succ_cons]
    rw [List.take_append_of_le_length (by simp [hr])]
    rw [List.take_of_length_le (by simp [hr])]

/-- Witness for C2: logging "a" to "k" leaves "k" down to "b". -/
theorem C2_log_sequence_witness :
    ∃ l, logAll (NewLogger "--" ["H1"]) ["a", "b", "c", "d", "e", "f", "g", "h", "i", "j", "k"]
        = some l
      ∧ l.logMessages = ["k", "j", "i", "h", "g", "f", "e", "d", "c", "b"] := by
  obtain ⟨l, h, _, _, _, _, hev⟩ := C2_log_sequence_keeps_latest_ten "--" ["H1"]
    ["a", "b", "c", "d", "e", "f", "g", "h", "i", "j", "k"]
  exact ⟨l, h, hev "a" ["b", "c", "d", "e", "f", "g", "h", "i", "j"] "k" rfl rfl⟩

/-- C3: for a line number between 1 and the number of header lines, `UpdateLine` succeeds,
sets that 1-based slot to the content and changes nothing else: the other slots, the number of
header lines, the tail and the separator stay as they were. -/
theorem C3_updateLine_in_range (l : Logger) (lineNumber : Int) (content : String)
    (h1 : 1 ≤ lineNumber) (h2 : lineNumber ≤ (l.lines.length : Int)) :
    ∃ l1, l.UpdateLine lineNumber content = some l1
      ∧ l1.lines[(lineNumber - 1).toNat]? = some content
      ∧ (∀ i : Nat, i ≠ (lineNumber - 1).toNat → l1.lines[i]? = l.lines[i]?)
      ∧ l1.lines.length = l.lines.length
      ∧ l1.logMessages = l.logMessages
      ∧ l1.separator = l.separator := by
  refine ⟨_, UpdateLine_inRange l lineNumber content h1 h2, ?_, ?_, ?_, rfl, rfl⟩
  · have hlt : (lineNumber - 1).toNat < l.lines.length := by omega
    generalize (lineNumber - 1).toNat = k at hlt
    simp [List.getElem?_set, hlt]
  · intro i hi
    generalize (lineNumber - 1).toNat = k at hi
    simp [List.getElem?_set, Ne.symm hi]
  · simp

/-- Witness for C3: with three header lines, `UpdateLine 2 "x"` changes exactly slot 2. -/
theorem C3_updateLine_in_range_witness :
    ∃ l1, (NewLogger "--" ["H1", "H2", "H3"]).UpdateLine 2 "x" = some l1
      ∧ l1.lines = ["H1", "x", "H3"] := by
  obtain ⟨l1, h, _⟩ := C3_updateLine_in_range (NewLogger "--" ["H1", "H2", "H3"]) 2 "x"
    (by decide) (by decide)
  refine ⟨l1, h, ?_⟩
  have h2 : (NewLogger "--" ["H1", "H2", "H3"]).UpdateLine 2 "x"
      = some { separator := "--", lines := ["H1", "x", "H3"], logMessages := [] } := by decide
  rw [h2] at h
  cases h
  rfl

/-- C4: `UpdateLine` never panics, whatever the line number; and for a line number that is out
of range (zero, negative, or above the number of header lines, which covers every line number
when there are no header lines) it returns the state unchanged. -/
theorem C4_updateLine_out_of_range (l : Logger) (lineNumber : Int) (content : String)
    (h : lineNumber ≤ 0 ∨ lineNumber > (l.lines.length : Int)) :
    l.UpdateLine lineNumber content = some l
      ∧ (∀ (n : Int) (c : String), (l.UpdateLine n c).isSome = true)
      ∧ (l.lines = [] → ∀ (n : Int) (c : String), l.UpdateLine n c = some l) := by
  refine ⟨UpdateLine_outOfRange l lineNumber content h, ?_, ?_⟩
  · intro n c
    obtain ⟨ls, hs, _⟩ := UpdateLine_shape l n c
    rw [hs]; rfl
  · intro hnil n c
    apply UpdateLine_outOfRange
    rw [hnil]
    simp only [List.length_nil, Int.ofNat_zero]
    omega

/-- Witness for C4: with three header lines, line numbers 0, 4 and -1 change nothing. -/
theorem C4_updateLine_out_of_range_witness :
    (NewLogger "--" ["H1", "H2", "H3"]).UpdateLine 0 "x" = some (NewLogger "--" ["H1", "H2", "H3"])
      ∧ (NewLogger "--" ["H1", "H2", "H3"]).UpdateLine 4 "x"
          = some (NewLogger "--" ["H1", "H2", "H3"])
      ∧ (NewLogger "--" ["H1", "H2", "H3"]).UpdateLine (-1) "x"
          = some (NewLogger "--" ["H1", "H2", "H3"]) :=
  ⟨(C4_updateLine_out_of_range (NewLogger "--" ["H1", "H2", "H3"]) 0 "x"
      (Or.inl (by decide))).1,
   (C4_updateLine_out_of_range (NewLogger "--" ["H1", "H2", "H3"]) 4 "x"
      (Or.inr (by decide))).1,
   (C4_updateLine_out_of_range (NewLogger "--" ["H1", "H2", "H3"]) (-1) "x"
      (Or.inl (by decide))).1⟩

/-- C5: `NewLogger` yields a controller whose header lines are the given ones, element for
element and with the same length, whose separator is the given one and whose tail is empty;
the frame of this initial state is the cursor-home sequence, the header lines and the
separator, with no tail entry. -/
theorem C5_newLogger_initial_state (separator : String) (topLines : List String) :
    (NewLogger separator topLines).lines = topLines
      ∧ (NewLogger separator topLines).lines.length = topLines.length
      ∧ (∀ i : Nat, (NewLogger separator topLines).lines[i]? = topLines[i]?)
      ∧ (NewLogger separator topLines).separator = separator
      ∧ (NewLogger separator topLines).logMessages = []
      ∧ tickWrites (NewLogger separator topLines)
          = moveToTop :: (topLines.map (fun x => x ++ "\n") ++ [separator ++ "\n"])
      ∧ frameEntries (NewLogger separator topLines) = topLines.length + 1 := by
  have h := NewLogger_eq separator topLines
  refine ⟨by rw [h], by rw [h], fun i => by rw [h], by rw [h], by rw [h], ?_, ?_⟩
  · rw [tickWrites_eq, h]; simp
  · rw [frameEntries_eq, h]; simp

/-- C8: in every state reached from `NewLogger` by any finite sequence of `Log` calls,
`UpdateLine` calls and repaint ticks, no call panics, the tail has at most 10 entries and the
number of header lines is the number given at construction. -/
theorem C8_reachable_invariant (separator : String) (topLines : List String) (ops : List Op) :
    ∃ l, applyOps (NewLogger separator topLines) ops = some l
      ∧ l.logMessages.length ≤ 10
      ∧ l.lines.length = topLines.length := by
  obtain ⟨l, h, hb, hl, _, _⟩ :=
    applyOps_spec (NewLogger separator topLines) ops (NewLogger_tailBounded _ _)
  refine ⟨l, h, hb, ?_⟩
  rw [hl, NewLogger_eq]

/-! ## Claims about one repaint -/

theorem println_ne_clearScreen (x : String) : x ++ "\n" ≠ clearScreen := by
  intro h
  have h1 := congrArg (fun t => t.data.getLast?) h
  simp [String.data_append, clearScreen] at h1

theorem println_ne_hideCursor (x : String) : x ++ "\n" ≠ hideCursor := by
  intro h
  have h1 := congrArg (fun t => t.data.getLast?) h
  simp [String.data_append, hideCursor] at h1

theorem println_ne_showCursor (x : String) : x ++ "\n" ≠ showCursor := by
  intro h
  have h1 := congrArg (fun t => t.data.getLast?) h
  simp [String.data_append, showCursor] at h1

theorem not_mem_tickWrites (l : Logger) (c : String) (h0 : c ≠ moveToTop)
    (h1 : ∀ x : String, x ++ "\n" ≠ c) : c ∉ tickWrites l := by
  rw [tickWrites_eq]
  intro hm
  simp only [List.mem_cons, List.mem_append, List.mem_map] at hm
  rcases hm with h | ⟨x, _, hx⟩ | h | ⟨x, _, hx⟩
  · exact h0 h
  · exact h1 x hx
  · exact h1 _ h.symm
  · exact h1 x hx

theorem text_data (ws : List String) : (text ws).data = (ws.map String.data).flatten := by
  induction ws with
  | nil => rfl
  | cons w ws ih =>
    have h : text (w :: ws) = w ++ text ws := rfl
    rw [h, String.data_append, ih, List.map_cons, List.flatten_cons]

theorem esc_not_mem_println_flatten (xs : List String) (h : ∀ x ∈ xs, esc ∉ x.data) :
    esc ∉ ((xs.map (fun x => x ++ "\n")).map String.data).flatten := by
  intro hm
  simp only [List.mem_flatten, List.mem_map] at hm
  obtain ⟨d, ⟨w, ⟨x, hx, rfl⟩, rfl⟩, hd⟩ := hm
  rw [String.data_append, List.mem_append] at hd
  rcases hd with hd | hd
  · exact h x hx hd
  · revert hd; decide

theorem clearScreen_not_infix (rest : List Char) (h : esc ∉ rest) :
    ¬ clearScreen.data <:+: moveToTop.data ++ rest := by
  rintro ⟨a, b, hab⟩
  have hc : clearScreen.data = [esc, '[', '2', 'J'] := rfl
  have hm : moveToTop.data = [esc, '[', 'H'] := rfl
  rw [hc, hm] at hab
  cases a with
  | nil =>
    simp only [List.nil_append, List.cons_append, List.cons.injEq] at hab
    exact absurd hab.2.2.1 (by decide)
  | cons a0 a1 =>
    simp only [List.cons_append, List.cons.injEq, List.append_assoc, List.nil_append] at hab
    have hin : esc ∈ '[' :: 'H' :: rest := by
      rw [← hab.2]; simp
    simp only [List.mem_cons] at hin
    rcases hin with h1 | h1 | h1
    · revert h1; decide
    · revert h1; decide
    · exact h h1

/-- C6: for every state, one repaint tick writes the cursor-home sequence, then every header
line in slot order followed by a newline, then the separator followed by a newline, then every
tail entry in tail order followed by a newline, and nothing else; the screen-clear sequence is
not among the writes of a tick (nor, when the strings of the state contain no escape character,
anywhere in the text written), and the tick leaves the state as it was. -/
theorem C6_tick_frame (l : Logger) :
    (tick l).2
        = moveToTop :: (l.lines.map (fun x => x ++ "\n")
            ++ (l.separator ++ "\n") :: l.logMessages.map (fun x => x ++ "\n"))
      ∧ text (tick l).2
          = "\x1b[H" ++ (text (l.lines.map (fun x => x ++ "\n"))
              ++ ((l.separator ++ "\n") ++ text (l.logMessages.map (fun x => x ++ "\n"))))
      ∧ clearScreen ∉ (tick l).2
      ∧ ((∀ x ∈ l.lines ++ l.separator :: l.logMessages, esc ∉ x.data) →
          ¬ occursIn clearScreen (text (tick l).2))
      ∧ (tick l).1 = l := by
  have hw : (tick l).2 = tickWrites l := rfl
  refine ⟨by rw [hw, tickWrites_eq], ?_, ?_, ?_, rfl⟩
  · rw [hw, tickWrites_eq]
    have h1 : ∀ (w : String) (ws : List String), text (w :: ws) = w ++ text ws :=
      fun _ _ => rfl
    rw [h1, text_append, h1]
    rfl
  · rw [hw]
    exact not_mem_tickWrites l clearScreen (by decide) println_ne_clearScreen
  · intro hesc
    rw [hw, tickWrites_eq]
    unfold occursIn
    rw [text_data, List.map_cons, List.flatten_cons]
    apply clearScreen_not_infix
    have := esc_not_mem_println_flatten (l.lines ++ l.separator :: l.logMessages) hesc
    simpa using this

/-- Witness for C6: the frame of a state with two header lines and two tail entries. -/
theorem C6_tick_frame_witness :
    text (tick { separator := "--", lines := ["H1", "H2"], logMessages := ["b", "a"] }).2
        = "\x1b[HH1\nH2\n--\nb\na\n"
      ∧ ¬ occursIn clearScreen
          (text (tick { separator := "--", lines := ["H1", "H2"], logMessages := ["b", "a"] }).2) :=
  ⟨(C6_tick_frame { separator := "--", lines := ["H1", "H2"], logMessages := ["b", "a"] }).2.1.trans
      (by decide),
   (C6_tick_frame { separator := "--", lines := ["H1", "H2"], logMessages := ["b", "a"] }).2.2.2.1
      (by decide)⟩

/-! ## The repaint task -/

theorem not_mem_frames (snaps : List Logger) (c : String) (h0 : c ≠ moveToTop)
    (h1 : ∀ x : String, x ++ "\n" ≠ c) : c ∉ frames snaps := by
  intro hm
  simp only [frames, List.mem_flatten, List.mem_map] at hm
  obtain ⟨ws, ⟨l, _, rfl⟩, hc⟩ := hm
  exact not_mem_tickWrites l c h0 h1 hc

theorem frames_append_tick (snaps : List Logger) (l : Logger) :
    frames snaps ++ tickWrites l = frames (snaps ++ [l]) := by
  simp [frames]

/-- What a single step does to the task, case by case. -/
theorem step_cases (s s1 : Sys) (e : Event) (h : step s e = some s1) :
    (e = .start ∧ s.phase = .notStarted ∧ s1.phase = .running
        ∧ s1.out = s.out ++ [clearScreen, hideCursor] ∧ s1.wg = s.wg
        ∧ s1.stopReturned = s.stopReturned)
    ∨ (e = .tick ∧ s.phase = .running ∧ s1.phase = .running
        ∧ s1.out = s.out ++ tickWrites s.logger ∧ s1.wg = s.wg
        ∧ s1.stopReturned = s.stopReturned ∧ s1.logger = s.logger)
    ∨ (e = .stop ∧ s.phase = .running ∧ s.stopClosed = true ∧ s1.phase = .exited
        ∧ s1.out = s.out ++ [showCursor] ∧ s1.wg = s.wg - 1
        ∧ s1.stopReturned = s.stopReturned)
    ∨ (e ≠ .start ∧ e ≠ .tick ∧ e ≠ .stop ∧ s1.phase = s.phase ∧ s1.out = s.out
        ∧ s1.wg = s.wg
        ∧ (s1.stopReturned = true → s.stopReturned = true ∨ (e = .waitReturn ∧ s.wg = 0))) := by
  cases e with
  | start =>
    left
    by_cases hp : s.phase = .notStarted
    · simp only [step] at h
      rw [if_pos hp] at h
      cases h
      exact ⟨rfl, hp, rfl, rfl, rfl, rfl⟩
    · simp [step, hp] at h
  | tick =>
    right; left
    by_cases hp : s.phase = .running
    · simp only [step] at h
      rw [if_pos hp] at h
      cases h
      exact ⟨rfl, hp, hp, rfl, rfl, rfl, rfl⟩
    · simp [step, hp] at h
  | stop =>
    right; right; left
    by_cases hp : s.phase = .running ∧ s.stopClosed = true
    · simp only [step] at h
      rw [if_pos hp] at h
      cases h
      exact ⟨rfl, hp.1, hp.2, rfl, rfl, rfl, rfl⟩
    · simp [step, hp] at h
  | log m =>
    right; right; right
    simp only [step, Log_eq, Option.map_some', Option.some.injEq] at h
    subst h
    exact ⟨by simp, by simp, by simp, rfl, rfl, rfl, fun hr => Or.inl hr⟩
  | updateLine n c =>
    right; right; right
    obtain ⟨ls, hs, _⟩ := UpdateLine_shape s.logger n c
    simp only [step, hs, Option.map_some', Option.some.injEq] at h
    subst h
    exact ⟨by simp, by simp, by simp, rfl, rfl, rfl, fun hr => Or.inl hr⟩
  | closeStop =>
    right; right; right
    by_cases hp : s.stopClosed = true
    · simp [step, hp] at h
    · simp only [step] at h
      rw [if_neg hp] at h
      cases h
      exact ⟨by simp, by simp, by simp, rfl, rfl, rfl, fun hr => Or.inl hr⟩
  | waitReturn =>
    right; right; right
    by_cases hp : s.stopClosed = true ∧ s.wg = 0
    · simp only [step] at h
      rw [if_pos hp] at h
      cases h
      exact ⟨by simp, by simp, by simp, rfl, rfl, rfl, fun _ => Or.inr ⟨rfl, hp.2⟩⟩
    · simp [step, hp] at h

theorem taskInv_new (separator : String) (topLines : List String) :
    TaskInv (Sys.new separator topLines) := by
  simp [TaskInv, Sys.new]

theorem taskInv_step (s s1 : Sys) (e : Event) (hi : TaskInv s) (h : step s e = some s1) :
    TaskInv s1 := by
  rcases step_cases s s1 e h with
    ⟨_, hp, hp1, ho, hw, hr⟩ | ⟨_, hp, hp1, ho, hw, hr, _⟩ | ⟨_, hp, _, hp1, ho, hw, hr⟩
      | ⟨_, _, _, hp1, ho, hw, hr⟩
  · simp only [TaskInv, hp] at hi
    simp only [TaskInv, hp1]
    refine ⟨⟨[], ?_⟩, hw.trans hi.2.1, hr.trans hi.2.2⟩
    rw [ho, hi.1]; rfl
  · simp only [TaskInv, hp] at hi
    simp only [TaskInv, hp1]
    obtain ⟨⟨snaps, hs⟩, hwg, hsr⟩ := hi
    refine ⟨⟨snaps ++ [s.logger], ?_⟩, hw.trans hwg, hr.trans hsr⟩
    rw [ho, hs, ← frames_append_tick]; rfl
  · simp only [TaskInv, hp] at hi
    simp only [TaskInv, hp1]
    obtain ⟨⟨snaps, hs⟩, hwg, _⟩ := hi
    refine ⟨⟨snaps, ?_⟩, ?_⟩
    · rw [ho, hs]; rfl
    · rw [hw, hwg]
  · cases hph : s.phase with
    | notStarted =>
      simp only [TaskInv, hph] at hi
      rw [hph] at hp1
      simp only [TaskInv, hp1]
      refine ⟨ho.trans hi.1, hw.trans hi.2.1, ?_⟩
      cases hsr : s1.stopReturned with
      | false => rfl
      | true =>
        rcases hr hsr with h1 | ⟨_, h1⟩
        · rw [hi.2.2] at h1; cases h1
        · rw [hi.2.1] at h1; cases h1
    | running =>
      simp only [TaskInv, hph] at hi
      rw [hph] at hp1
      simp only [TaskInv, hp1]
      obtain ⟨⟨snaps, hs⟩, hwg, hsr0⟩ := hi
      refine ⟨⟨snaps, ho.trans hs⟩, hw.trans hwg, ?_⟩
      cases hsr : s1.stopReturned with
      | false => rfl
      | true =>
        rcases hr hsr with h1 | ⟨_, h1⟩
        · rw [hsr0] at h1; cases h1
        · rw [hwg] at h1; cases h1
    | exited =>
      simp only [TaskInv, hph] at hi
      rw [hph] at hp1
      simp only [TaskInv, hp1]
      obtain ⟨⟨snaps, hs⟩, hwg⟩ := hi
      exact ⟨⟨snaps, ho.trans hs⟩, hw.trans hwg⟩

theorem exec_append (s : Sys) (a b : List Event) :
    exec s (a ++ b) = (exec s a).bind (fun s1 => exec s1 b) := by
  induction a generalizing s with
  | nil => rfl
  | cons e es ih =>
    rw [List.cons_append, exec, exec]
    cases step s e with
    | none => rfl
    | some s1 => simp only [Option.some_bind, ih]

theorem taskInv_exec (s s1 : Sys) (evs : List Event) (hi : TaskInv s)
    (h : exec s evs = some s1) : TaskInv s1 := by
  induction evs generalizing s with
  | nil => simp only [exec, Option.some.injEq] at h; subst h; exact hi
  | cons e es ih =>
    simp only [exec] at h
    cases hs : step s e with
    | none => rw [hs] at h; cases h
    | some s2 =>
      rw [hs, Option.some_bind] at h
      exact ih s2 (taskInv_step s s2 e hi hs) h

theorem phase_exec (s s1 : Sys) (evs : List Event) (h : exec s evs = some s1) :
    (s1.phase = .exited ↔ s.phase = .exited ∨ Event.stop ∈ evs)
      ∧ (s1.phase = .notStarted ↔ s.phase = .notStarted ∧ Event.start ∉ evs) := by
  induction evs generalizing s with
  | nil => simp only [exec, Option.some.injEq] at h; subst h; simp
  | cons e es ih =>
    simp only [exec] at h
    cases hs : step s e with
    | none => rw [hs] at h; cases h
    | some s2 =>
      rw [hs, Option.some_bind] at h
      obtain ⟨h1, h2⟩ := ih s2 h
      rw [h1, h2]
      rcases step_cases s s2 e hs with
        ⟨he, hp, hp1, _⟩ | ⟨he, hp, hp1, _⟩ | ⟨he, hp, _, hp1, _⟩ | ⟨he1, he2, he3, hp1, _⟩
      · subst he; simp [hp, hp1]
      · subst he; simp [hp, hp1]
      · subst he; simp [hp, hp1]
      · rw [hp1]
        simp only [List.mem_cons]
        constructor
        · constructor
          · rintro (h | h)
            · exact Or.inl h
            · exact Or.inr (Or.inr h)
          · rintro (h | h | h)
            · exact Or.inl h
            · exact absurd h.symm he3
            · exact Or.inr h
        · constructor
          · rintro ⟨h, hn⟩
            refine ⟨h, ?_⟩
            rintro (h3 | h3)
            · exact he1 h3.symm
            · exact hn h3
          · rintro ⟨h, hn⟩
            exact ⟨h, fun h3 => hn (Or.inr h3)⟩

theorem exec_split (s s1 : Sys) (pre post : List Event) (e : Event)
    (h : exec s (pre ++ e :: post) = some s1) :
    ∃ sp s0, exec s pre = some sp ∧ step sp e = some s0 ∧ exec s0 post = some s1 := by
  rw [exec_append] at h
  cases hp : exec s pre with
  | none => rw [hp] at h; cases h
  | some sp =>
    rw [hp, Option.some_bind, exec] at h
    cases hs : step sp e with
    | none => rw [hs] at h; cases h
    | some s0 =>
      rw [hs, Option.some_bind] at h
      exact ⟨sp, s0, rfl, hs, h⟩

theorem exec_snoc (s sp s0 : Sys) (pre : List Event) (e : Event)
    (hp : exec s pre = some sp) (hs : step sp e = some s0) :
    exec s (pre ++ [e]) = some s0 := by
  rw [exec_append, hp, Option.some_bind, exec, hs, Option.some_bind, exec]

/-- Once the task has exited, no step of it is enabled and the terminal is left alone. -/
theorem exec_after_exit (s s1 : Sys) (post : List Event) (hx : s.phase = .exited)
    (h : exec s post = some s1) :
    s1.out = s.out ∧ Event.tick ∉ post ∧ Event.start ∉ post ∧ Event.stop ∉ post := by
  induction post generalizing s with
  | nil => simp only [exec, Option.some.injEq] at h; subst h; simp
  | cons e es ih =>
    simp only [exec] at h
    cases hs : step s e with
    | none => rw [hs] at h; cases h
    | some s2 =>
      rw [hs, Option.some_bind] at h
      rcases step_cases s s2 e hs with
        ⟨_, hp, _⟩ | ⟨_, hp, _⟩ | ⟨_, hp, _⟩ | ⟨he1, he2, he3, hp1, ho, _⟩
      · rw [hx] at hp; cases hp
      · rw [hx] at hp; cases hp
      · rw [hx] at hp; cases hp
      · obtain ⟨h1, h2, h3, h4⟩ := ih s2 (hp1.trans hx) h
        refine ⟨h1.trans ho, ?_, ?_, ?_⟩
        · simp only [List.mem_cons, not_or]; exact ⟨Ne.symm he2, h2⟩
        · simp only [List.mem_cons, not_or]; exact ⟨Ne.symm he1, h3⟩
        · simp only [List.mem_cons, not_or]; exact ⟨Ne.symm he3, h4⟩

theorem wg_zero_exited (s : Sys) (hi : TaskInv s) (hw : s.wg = 0) : s.phase = .exited := by
  cases hph : s.phase with
  | notStarted => simp only [TaskInv, hph] at hi; rw [hi.2.1] at hw; cases hw
  | running => simp only [TaskInv, hph] at hi; rw [hi.2.1] at hw; cases hw
  | exited => rfl

theorem waitReturn_enabled (s s1 : Sys) (h : step s .waitReturn = some s1) : s.wg = 0 := by
  by_cases hp : s.stopClosed = true ∧ s.wg = 0
  · exact hp.2
  · simp only [step] at h
    rw [if_neg hp] at h
    cases h

theorem count_control (snaps : List Logger) (c d : String) (tl : List String)
    (h0 : c ≠ moveToTop) (h1 : ∀ x : String, x ++ "\n" ≠ c) (hd : d ≠ c) (ht : c ∉ tl) :
    (d :: (frames snaps ++ tl)).count c = 0 := by
  apply List.count_eq_zero_of_not_mem
  simp only [List.mem_cons, List.mem_append, not_or]
  exact ⟨Ne.symm hd, not_mem_frames snaps c h0 h1, ht⟩

/-- C7: in every run of the system that `NewLogger` creates, the terminal writes are empty
until the repaint task starts and from then on begin with the screen-clear sequence followed
by the hide-cursor sequence, each written exactly once; the show-cursor sequence is written
only on the stop signal, and in every run that receives the stop signal it is written exactly
once and is the last terminal write: no tick, and no other step of the task, happens after it
and the writes stay as the stop step left them; and `Stop` returns only after the task has
received the stop signal and exited. -/
theorem C7_repaint_task_protocol (separator : String) (topLines : List String)
    (evs : List Event) (s : Sys) (h : exec (Sys.new separator topLines) evs = some s) :
    (clearScreen = "\x1b[2J" ∧ hideCursor = "\x1b[?25l" ∧ showCursor = "\x1b[?25h")
      ∧ (Event.start ∉ evs → s.out = [])
      ∧ (Event.start ∈ evs → ∃ rest, s.out = clearScreen :: hideCursor :: rest
          ∧ s.out.count clearScreen = 1 ∧ s.out.count hideCursor = 1)
      ∧ (Event.stop ∉ evs → showCursor ∉ s.out)
      ∧ (Event.stop ∈ evs → s.out.count showCursor = 1 ∧ s.out.getLast? = some showCursor
          ∧ ∃ snaps, s.out = clearScreen :: hideCursor :: (frames snaps ++ [showCursor]))
      ∧ (∀ pre post, evs = pre ++ Event.stop :: post →
          Event.tick ∉ post ∧ Event.start ∉ post ∧ Event.stop ∉ post
            ∧ ∃ s0, exec (Sys.new separator topLines) (pre ++ [Event.stop]) = some s0
                ∧ s.out = s0.out)
      ∧ (∀ pre post, evs = pre ++ Event.waitReturn :: post → Event.stop ∈ pre) := by
  have hinv := taskInv_exec _ s evs (taskInv_new separator topLines) h
  obtain ⟨hex, hns⟩ := phase_exec _ s evs h
  have hnew : (Sys.new separator topLines).phase = .notStarted := rfl
  simp only [hnew, true_and, false_or, reduceCtorEq] at hex hns
  have hcm : clearScreen ≠ moveToTop := by decide
  have hhm : hideCursor ≠ moveToTop := by decide
  have hsm : showCursor ≠ moveToTop := by decide
  refine ⟨⟨rfl, rfl, rfl⟩, ?_, ?_, ?_, ?_, ?_, ?_⟩
  · intro hst
    have hp := hns.2 hst
    simp only [TaskInv, hp] at hinv
    exact hinv.1
  · intro hst
    have hp : s.phase ≠ .notStarted := fun hp => (hns.1 hp) hst
    cases hph : s.phase with
    | notStarted => exact absurd hph hp
    | running =>
      simp only [TaskInv, hph] at hinv
      obtain ⟨⟨snaps, hs⟩, _⟩ := hinv
      refine ⟨_, hs, ?_, ?_⟩
      · rw [hs, List.count_cons_self, ← List.append_nil (frames snaps),
          count_control snaps clearScreen hideCursor [] hcm println_ne_clearScreen
            (by decide) (by simp)]
      · rw [hs, List.count_cons_of_ne (by decide), List.count_cons_self,
          ← List.append_nil (frames snaps)]
        have := count_control snaps hideCursor clearScreen [] hhm println_ne_hideCursor
            (by decide) (by simp)
        rw [List.count_cons_of_ne (by decide)] at this
        rw [this]
    | exited =>
      simp only [TaskInv, hph] at hinv
      obtain ⟨⟨snaps, hs⟩, _⟩ := hinv
      refine ⟨_, hs, ?_, ?_⟩
      · rw [hs, List.count_cons_self,
          count_control snaps clearScreen hideCursor [showCursor] hcm println_ne_clearScreen
            (by decide) (by decide)]
      · rw [hs, List.count_cons_of_ne (by decide), List.count_cons_self]
        have := count_control snaps hideCursor clearScreen [showCursor] hhm
            println_ne_hideCursor (by decide) (by decide)
        rw [List.count_cons_of_ne (by decide)] at this
        rw [this]
  · intro hst
    have hp : s.phase ≠ .exited := fun hp => hst (hex.1 hp)
    cases hph : s.phase with
    | notStarted =>
      simp only [TaskInv, hph] at hinv
      rw [hinv.1]; simp
    | running =>
      simp only [TaskInv, hph] at hinv
      obtain ⟨⟨snaps, hs⟩, _⟩ := hinv
      rw [hs]
      simp only [List.mem_cons, not_or]
      exact ⟨by decide, by decide, not_mem_frames snaps showCursor hsm println_ne_showCursor⟩
    | exited => exact absurd hph hp
  · intro hst
    have hp := hex.2 hst
    simp only [TaskInv, hp] at hinv
    obtain ⟨⟨snaps, hs⟩, _⟩ := hinv
    refine ⟨?_, ?_, snaps, hs⟩
    · rw [hs, List.count_cons_of_ne (by decide), List.count_cons_of_ne (by decide),
        List.count_append, List.count_eq_zero_of_not_mem
          (not_mem_frames snaps showCursor hsm println_ne_showCursor)]
      rfl
    · rw [hs, ← List.cons_append, ← List.cons_append, List.getLast?_append]
      rfl
  · intro pre post hev
    subst hev
    obtain ⟨sp, s0, hpre, hstep, hpost⟩ := exec_split _ s pre post _ h
    have hx : s0.phase = .exited := by
      rcases step_cases sp s0 _ hstep with
        ⟨he, _⟩ | ⟨he, _⟩ | ⟨_, _, _, hp1, _⟩ | ⟨_, _, he, _⟩
      · cases he
      · cases he
      · exact hp1
      · exact absurd rfl he
    obtain ⟨ho, h1, h2, h3⟩ := exec_after_exit s0 s post hx hpost
    exact ⟨h1, h2, h3, s0, exec_snoc _ sp s0 pre _ hpre hstep, ho⟩
  · intro pre post hev
    subst hev
    obtain ⟨sp, s0, hpre, hstep, _⟩ := exec_split _ s pre post _ h
    have hi := taskInv_exec _ sp pre (taskInv_new separator topLines) hpre
    have hx := wg_zero_exited sp hi (waitReturn_enabled sp s0 hstep)
    have := (phase_exec _ sp pre hpre).1.1 hx
    simpa [hnew] using this

/-- Witness for C7: start, a log call, a tick, then `Stop` from close to return. -/
theorem C7_repaint_task_protocol_witness :
    exec (Sys.new "--" ["H"]) [.start, .log "a", .tick, .closeStop, .stop, .waitReturn]
        = some
          { logger := { separator := "--", lines := ["H"], logMessages := ["a"] }
            phase := .exited
            stopClosed := true
            wg := 0
            stopReturned := true
            out := ["\x1b[2J", "\x1b[?25l", "\x1b[H", "H\n", "--\n", "a\n", "\x1b[?25h"] }
      ∧ List.count showCursor
          ["\x1b[2J", "\x1b[?25l", "\x1b[H", "H\n", "--\n", "a\n", "\x1b[?25h"] = 1 :=
  ⟨by decide,
   ((C7_repaint_task_protocol "--" ["H"]
      [.start, .log "a", .tick, .closeStop, .stop, .waitReturn]
      { logger := { separator := "--", lines := ["H"], logMessages := ["a"] }
        phase := .exited
        stopClosed := true
        wg := 0
        stopReturned := true
        out := ["\x1b[2J", "\x1b[?25l", "\x1b[H", "H\n", "--\n", "a\n", "\x1b[?25h"] }
      (by decide)).2.2.2.2.1 (by decide)).1⟩

/-! ## The size of a frame over the life of a controller -/

/-- C10: in every state of the life of a controller (reached from `NewLogger` by calls and
ticks) a frame has header count + 1 + tail length entries; a `Log` call grows the tail by
exactly 1 while it is below 10 and leaves it at 10 otherwise, an `UpdateLine` call with any
arguments leaves the tail length as it is, neither changes the header count, so the tail
length and the number of entries of a frame never decrease, whatever calls and ticks follow. -/
theorem C10_frame_never_shrinks (separator : String) (topLines : List String) (ops : List Op) :
    ∃ l, applyOps (NewLogger separator topLines) ops = some l
      ∧ frameEntries l = l.lines.length + 1 + l.logMessages.length
      ∧ (∀ m : String, ∃ l1, l.Log m = some l1
          ∧ l1.logMessages.length
              = (if l.logMessages.length < 10 then l.logMessages.length + 1 else 10)
          ∧ l.logMessages.length ≤ l1.logMessages.length
          ∧ l1.lines.length = l.lines.length
          ∧ frameEntries l ≤ frameEntries l1)
      ∧ (∀ (n : Int) (c : String), ∃ l1, l.UpdateLine n c = some l1
          ∧ l1.logMessages.length = l.logMessages.length
          ∧ l1.lines.length = l.lines.length
          ∧ frameEntries l1 = frameEntries l)
      ∧ (∀ more : List Op, ∃ l2, applyOps l more = some l2
          ∧ l.logMessages.length ≤ l2.logMessages.length
          ∧ l2.lines.length = l.lines.length
          ∧ frameEntries l ≤ frameEntries l2) := by
  obtain ⟨l, h, hb, _, _, _⟩ :=
    applyOps_spec (NewLogger separator topLines) ops (NewLogger_tailBounded _ _)
  unfold TailBounded at hb
  refine ⟨l, h, frameEntries_eq l, ?_, ?_, ?_⟩
  · intro m
    refine ⟨_, Log_eq l m, ?_, ?_, rfl, ?_⟩
    · simp only [List.length_take, List.length_cons]
      split <;> omega
    · simp only [List.length_take, List.length_cons]
      omega
    · simp only [frameEntries_eq, List.length_take, List.length_cons]
      omega
  · intro n c
    obtain ⟨ls, hs, hl⟩ := UpdateLine_shape l n c
    refine ⟨_, hs, rfl, hl, ?_⟩
    simp only [frameEntries_eq, hl]
  · intro more
    obtain ⟨l2, h2, _, hl2, _, hm2⟩ := applyOps_spec l more hb
    refine ⟨l2, h2, hm2, hl2, ?_⟩
    simp only [frameEntries_eq, hl2]
    omega

/-! ## Concurrent callers: the mutex serialises the calls -/

theorem set_lookup (cs : List Caller) (t j : Nat) (th1 thj : Caller)
    (h : (cs.set t th1)[j]? = some thj) :
    (j = t ∧ thj = th1) ∨ (j ≠ t ∧ cs[j]? = some thj) := by
  by_cases hj : t = j
  · subst hj
    left
    rw [List.getElem?_set] at h
    simp only [if_true] at h
    by_cases hl : t < cs.length
    · rw [if_pos hl] at h; cases h; exact ⟨rfl, rfl⟩
    · rw [if_neg hl] at h; cases h
  · right
    rw [List.getElem?_set_ne hj] at h
    exact ⟨fun h1 => hj h1.symm, h⟩

theorem lookup_lt (cs : List Caller) (t : Nat) (th : Caller) (h : cs[t]? = some th) :
    t < cs.length := by
  obtain ⟨hl, _⟩ := List.getElem?_eq_some.mp h
  exact hl

theorem sum_map_set (cs : List Caller) (t : Nat) (th th1 : Caller) (f : Caller → Nat)
    (h : cs[t]? = some th) :
    ((cs.set t th1).map f).sum + f th = (cs.map f).sum + f th1 := by
  induction cs generalizing t with
  | nil => simp at h
  | cons c cs ih =>
    cases t with
    | zero =>
      simp only [List.getElem?_cons_zero, Option.some.injEq] at h
      subst h
      simp only [List.set_cons_zero, List.map_cons, List.sum_cons]
      omega
    | succ t =>
      simp only [List.getElem?_cons_succ] at h
      have := ih t h
      simp only [List.set_cons_succ, List.map_cons, List.sum_cons]
      omega

theorem replay_append (l : Logger) (a b : List Call) :
    replay l (a ++ b) = (replay l a).bind (fun l1 => replay l1 b) := by
  induction a generalizing l with
  | nil => rfl
  | cons c cs ih =>
    rw [List.cons_append, replay, replay]
    cases c.run l with
    | none => rfl
    | some l1 => simp only [Option.some_bind, ih]

theorem callerOK_idle (base l : Logger) (th : Caller) (h : th.pc = .idle) :
    CallerOK base l th := by
  simp only [CallerOK, h]

theorem painterOK_idle (base l : Logger) (p : Painter) (h : p.pc = .idle) :
    PainterOK base l p := by
  simp only [PainterOK, h]

/-- While producer `t` is inside a call, every other goroutine is between calls. -/
theorem others_idle (l0 : Logger) (progs : List (List Call)) (s : CSys) (base : Logger)
    (hi : CInv l0 progs s base) (t : Nat) (hmu : s.mu = some (.caller t)) :
    (∀ (j : Nat) (thj : Caller), s.callers[j]? = some thj → j ≠ t → thj.pc = .idle)
      ∧ s.painter.pc = .idle := by
  constructor
  · intro j thj hj hne
    by_contra hpc
    have := hi.ownC j thj hj hpc
    rw [hmu] at this
    cases this
    exact hne rfl
  · by_contra hpc
    have := hi.ownP hpc
    rw [hmu] at this
    cases this

/-- While the mutex is free or the repaint task holds it, every producer is between calls. -/
theorem callers_idle (l0 : Logger) (progs : List (List Call)) (s : CSys) (base : Logger)
    (hi : CInv l0 progs s base) (hmu : s.mu = none ∨ s.mu = some .painter) :
    ∀ (j : Nat) (thj : Caller), s.callers[j]? = some thj → thj.pc = .idle := by
  intro j thj hj
  by_contra hpc
  have := hi.ownC j thj hj hpc
  rcases hmu with h | h <;> rw [h] at this <;> cases this

/-- A statement of producer `t` between its lock and its unlock keeps the invariant. -/
theorem cinv_callerMid (l0 : Logger) (progs : List (List Call)) (s : CSys) (base : Logger)
    (hi : CInv l0 progs s base) (t : Nat) (th th1 : Caller) (l1 : Logger)
    (hth : s.callers[t]? = some th) (hpc : th.pc ≠ .idle) (hpc1 : th1.pc ≠ .idle)
    (hprog : th1.prog = th.prog) (hok : CallerOK base l1 th1) :
    CInv l0 progs { s with logger := l1, callers := s.callers.set t th1 } base := by
  have hmu := hi.ownC t th hth hpc
  obtain ⟨hoth, hpidle⟩ := others_idle l0 progs s base hi t hmu
  have hlt := lookup_lt _ _ _ hth
  refine ⟨hi.replayed, ?_, hi.ownP, ?_, ?_, ?_, hi.framesOK, ?_, ?_, hi.tids, ?_⟩
  · intro j thj hj hne
    rcases set_lookup _ _ _ _ _ hj with ⟨rfl, _⟩ | ⟨_, hold⟩
    · exact hmu
    · exact hi.ownC j thj hold hne
  · intro hall
    exact absurd (hall t th1 (List.getElem?_set_self hlt)) hpc1
  · intro j thj hj
    rcases set_lookup _ _ _ _ _ hj with ⟨_, rfl⟩ | ⟨hne, hold⟩
    · exact hok
    · exact callerOK_idle _ _ _ (hoth j thj hold hne)
  · exact painterOK_idle _ _ _ hpidle
  · simp only [List.length_set]; exact hi.len
  · intro j thj hj
    rcases set_lookup _ _ _ _ _ hj with ⟨rfl, rfl⟩ | ⟨_, hold⟩
    · rw [hprog]; exact hi.order j th hth
    · exact hi.order j thj hold
  · have := sum_map_set s.callers t th th1 (fun th => th.prog.length) hth
    have hc := hi.count
    simp only [hprog] at this
    simp only
    omega

/-- A statement of the repaint task between its lock and its unlock keeps the invariant. -/
theorem cinv_painterMid (l0 : Logger) (progs : List (List Call)) (s : CSys) (base : Logger)
    (hi : CInv l0 progs s base) (p1 : Painter)
    (hpc : s.painter.pc ≠ .idle) (hok : PainterOK base s.logger p1) :
    CInv l0 progs { s with painter := p1 } base :=
  ⟨hi.replayed, hi.ownC, fun _ => hi.ownP hpc, hi.quiet, hi.callerOK, hok, hi.framesOK,
    hi.len, hi.order, hi.tids, hi.count⟩

/-- Taking the mutex as producer `t` keeps the invariant. -/
theorem cinv_callerLock (l0 : Logger) (progs : List (List Call)) (s : CSys) (base : Logger)
    (hi : CInv l0 progs s base) (t : Nat) (th : Caller)
    (hth : s.callers[t]? = some th) (hprog : th.prog ≠ []) (hmu : s.mu = none) :
    CInv l0 progs
      { s with mu := some (.caller t), callers := s.callers.set t { th with pc := .locked } }
      base := by
  have hidle := callers_idle l0 progs s base hi (Or.inl hmu)
  have hlt := lookup_lt _ _ _ hth
  have hpidle : s.painter.pc = .idle := by
    by_contra hpc
    have := hi.ownP hpc
    rw [hmu] at this
    cases this
  refine ⟨hi.replayed, ?_, ?_, ?_, ?_, hi.painterOK, hi.framesOK, ?_, ?_, hi.tids, ?_⟩
  · intro j thj hj hne
    rcases set_lookup _ _ _ _ _ hj with ⟨rfl, _⟩ | ⟨_, hold⟩
    · rfl
    · exact absurd (hidle j thj hold) hne
  · intro hpc
    exact absurd hpidle hpc
  · intro hall
    have := hall t _ (List.getElem?_set_self hlt)
    cases this
  · intro j thj hj
    rcases set_lookup _ _ _ _ _ hj with ⟨_, rfl⟩ | ⟨_, hold⟩
    · exact ⟨hprog, hi.quiet hidle⟩
    · exact hi.callerOK j thj hold
  · simp only [List.length_set]; exact hi.len
  · intro j thj hj
    rcases set_lookup _ _ _ _ _ hj with ⟨rfl, rfl⟩ | ⟨_, hold⟩
    · exact hi.order j th hth
    · exact hi.order j thj hold
  · have := sum_map_set s.callers t th { th with pc := .locked } (fun th => th.prog.length) hth
    have hc := hi.count
    simp only at this ⊢
    omega

/-- Releasing the mutex as producer `t` keeps the invariant: the call joins the finished ones
and the shared fields are the new result. -/
theorem cinv_callerUnlock (l0 : Logger) (progs : List (List Call)) (s : CSys) (base : Logger)
    (hi : CInv l0 progs s base) (t : Nat) (th : Caller) (c : Call) (rest : List Call)
    (hth : s.callers[t]? = some th) (hpc : th.pc = .unlock) (hprog : th.prog = c :: rest) :
    CInv l0 progs
      { s with
        mu := none
        callers := s.callers.set t { th with prog := rest, pc := .idle }
        done := s.done ++ [(t, c)] }
      s.logger := by
  have hne : th.pc ≠ .idle := by rw [hpc]; decide
  have hmu := hi.ownC t th hth hne
  obtain ⟨hoth, hpidle⟩ := others_idle l0 progs s base hi t hmu
  have hlt := lookup_lt _ _ _ hth
  have hok := hi.callerOK t th hth
  simp only [CallerOK, hpc] at hok
  obtain ⟨c1, rest1, hp1, hrun⟩ := hok
  rw [hprog] at hp1
  cases hp1
  have hall : ∀ (j : Nat) (thj : Caller),
      (s.callers.set t { th with prog := rest, pc := .idle })[j]? = some thj → thj.pc = .idle := by
    intro j thj hj
    rcases set_lookup _ _ _ _ _ hj with ⟨_, rfl⟩ | ⟨hjne, hold⟩
    · rfl
    · exact hoth j thj hold hjne
  refine ⟨?_, ?_, ?_, fun _ => rfl, ?_, painterOK_idle _ _ _ hpidle, ?_, ?_, ?_, ?_, ?_⟩
  · simp only [List.map_append, List.map_cons, List.map_nil]
    rw [replay_append, hi.replayed, Option.some_bind, replay, hrun, Option.some_bind, replay]
  · intro j thj hj hjne
    exact absurd (hall j thj hj) hjne
  · intro hp
    exact absurd hpidle hp
  · intro j thj hj
    exact callerOK_idle _ _ _ (hall j thj hj)
  · intro f hf
    obtain ⟨k, lk, hk, hr, hfe⟩ := hi.framesOK f hf
    refine ⟨k, lk, ?_, ?_, hfe⟩
    · simp only [List.length_append, List.length_singleton]; omega
    · simp only [List.take_append_of_le_length hk]; exact hr
  · simp only [List.length_set]; exact hi.len
  · intro j thj hj
    rcases set_lookup _ _ _ _ _ hj with ⟨rfl, rfl⟩ | ⟨hjne, hold⟩
    · have := hi.order j th hth
      rw [hprog] at this
      simp only [List.filter_append, List.map_append, List.filter_cons, List.filter_nil,
        decide_True, if_true, List.map_cons, List.map_nil, List.append_assoc,
        List.singleton_append]
      exact this
    · have := hi.order j thj hold
      have hd : decide (t = j) = false := by simp [Ne.symm hjne]
      simp only [List.filter_append, List.filter_cons, List.filter_nil, hd, List.append_nil,
        Bool.false_eq_true, if_false]
      exact this
  · intro e he
    rcases List.mem_append.mp he with h | h
    · exact hi.tids e h
    · simp only [List.mem_singleton] at h
      subst h
      have := hi.len
      simp only
      omega
  · have := sum_map_set s.callers t th { th with prog := rest, pc := .idle }
      (fun th => th.prog.length) hth
    have hc := hi.count
    simp only [hprog, List.length_cons] at this
    simp only [List.length_append, List.length_singleton]
    omega

/-- Taking the mutex as the repaint task keeps the invariant. -/
theorem cinv_painterLock (l0 : Logger) (progs : List (List Call)) (s : CSys) (base : Logger)
    (hi : CInv l0 progs s base) (hmu : s.mu = none) :
    CInv l0 progs
      { s with mu := some .painter, painter := { s.painter with pc := .home, buf := [] } }
      base := by
  have hidle := callers_idle l0 progs s base hi (Or.inl hmu)
  refine ⟨hi.replayed, ?_, fun _ => rfl, hi.quiet, hi.callerOK, ?_, hi.framesOK, hi.len,
    hi.order, hi.tids, hi.count⟩
  · intro j thj hj hne
    exact absurd (hidle j thj hj) hne
  · exact ⟨hi.quiet hidle, rfl⟩

/-- Releasing the mutex as the repaint task keeps the invariant: the frame just written is
the frame of the result of the calls finished so far. -/
theorem cinv_painterUnlock (l0 : Logger) (progs : List (List Call)) (s : CSys) (base : Logger)
    (hi : CInv l0 progs s base) (hpc : s.painter.pc = .unlock) :
    CInv l0 progs
      { s with
        mu := none
        painter := { s.painter with pc := .idle }
        framesOut := s.framesOut ++ [s.painter.buf] }
      base := by
  have hne : s.painter.pc ≠ .idle := by rw [hpc]; decide
  have hmu := hi.ownP hne
  have hidle := callers_idle l0 progs s base hi (Or.inr hmu)
  have hok := hi.painterOK
  simp only [PainterOK, hpc] at hok
  refine ⟨hi.replayed, ?_, ?_, hi.quiet, hi.callerOK, ?_, ?_, hi.len,
    hi.order, hi.tids, hi.count⟩
  · intro j thj hj hjne
    exact absurd (hidle j thj hj) hjne
  · intro hp
    exact absurd rfl hp
  · exact painterOK_idle _ _ _ rfl
  · intro f hf
    rcases List.mem_append.mp hf with h | h
    · exact hi.framesOK f h
    · simp only [List.mem_singleton] at h
      subst h
      exact ⟨s.done.length, base, Nat.le_refl _, by rw [List.take_length]; exact hi.replayed,
        hok.2⟩

theorem cinv_callerStep (l0 : Logger) (progs : List (List Call)) (s s1 : CSys) (base : Logger)
    (hi : CInv l0 progs s base) (t : Nat) (th : Caller)
    (hth : s.callers[t]? = some th) (h : callerStep s t th = some s1) :
    ∃ base1, CInv l0 progs s1 base1 := by
  have hok := hi.callerOK t th hth
  rcases th with ⟨prog, pc, tmp⟩
  cases prog with
  | nil => cases pc <;> simp [callerStep] at h
  | cons c rest =>
    cases pc with
    | idle =>
      by_cases hmu : s.mu = none
      · simp only [callerStep, hmu, if_true, Option.some.injEq] at h
        subst h
        exact ⟨base, cinv_callerLock l0 progs s base hi t _ hth (by simp) hmu⟩
      · simp [callerStep, hmu] at h
    | locked =>
      simp only [CallerOK] at hok
      obtain ⟨_, hl⟩ := hok
      cases c with
      | log m =>
        simp only [callerStep, Option.some.injEq] at h
        subst h
        refine ⟨base, cinv_callerMid l0 progs s base hi t _ _ s.logger hth (by simp) (by simp)
          rfl ?_⟩
        exact ⟨m, rest, rfl, hl, by rw [hl]; rfl⟩
      | updateLine n c =>
        simp only [callerStep] at h
        by_cases hg : n > 0 ∧ n ≤ (s.logger.lines.length : Int)
        · rw [if_pos hg] at h
          cases hset : setIndex s.logger.lines (n - 1) c with
          | none => rw [hset] at h; cases h
          | some ls =>
            rw [hset, Option.map_some'] at h
            cases h
            refine ⟨base, cinv_callerMid l0 progs s base hi t _ _ { s.logger with lines := ls }
              hth (by simp) (by simp) rfl ?_⟩
            refine ⟨_, rest, rfl, ?_⟩
            rw [← hl]
            simp only [Call.run, Logger.UpdateLine]
            rw [if_pos hg, hset, Option.map_some']
        · rw [if_neg hg] at h
          cases h
          refine ⟨base, cinv_callerMid l0 progs s base hi t _ _ s.logger
            hth (by simp) (by simp) rfl ?_⟩
          refine ⟨_, rest, rfl, ?_⟩
          rw [← hl]
          simp only [Call.run, Logger.UpdateLine]
          rw [if_neg hg]
    | store =>
      simp only [CallerOK] at hok
      obtain ⟨m, rest1, hp, hl, htmp⟩ := hok
      simp only [callerStep, Option.some.injEq] at h
      subst h
      refine ⟨base, cinv_callerMid l0 progs s base hi t _ _ { s.logger with logMessages := tmp }
        hth (by simp) (by simp) rfl ?_⟩
      refine ⟨m, rest1, hp, ?_⟩
      change tmp = m :: base.logMessages at htmp
      rw [hl, htmp]
    | check =>
      simp only [CallerOK] at hok
      obtain ⟨m, rest1, hp, hl⟩ := hok
      simp only [callerStep] at h
      by_cases hg : s.logger.logMessages.length > 10
      · rw [if_pos hg] at h
        cases hsl : sliceTo s.logger.logMessages 10 with
        | none => rw [hsl] at h; cases h
        | some tl =>
          rw [hsl, Option.map_some'] at h
          cases h
          refine ⟨base, cinv_callerMid l0 progs s base hi t _ _
            { s.logger with logMessages := tl } hth (by simp) (by simp) rfl ?_⟩
          refine ⟨.log m, rest1, hp, ?_⟩
          rw [hl] at hg hsl
          simp only [Call.run, Logger.Log, List.singleton_append]
          simp only at hg hsl
          rw [if_pos hg, hsl, Option.map_some', hl]
      · rw [if_neg hg] at h
        cases h
        refine ⟨base, cinv_callerMid l0 progs s base hi t _ _ s.logger
          hth (by simp) (by simp) rfl ?_⟩
        refine ⟨.log m, rest1, hp, ?_⟩
        rw [hl] at hg
        simp only [Call.run, Logger.Log, List.singleton_append]
        simp only at hg
        rw [if_neg hg, hl]
    | unlock =>
      by_cases hmu : s.mu = none
      · simp [callerStep, hmu] at h
      · simp only [callerStep, hmu, if_false, Option.some.injEq] at h
        subst h
        exact ⟨s.logger, cinv_callerUnlock l0 progs s base hi t _ c rest hth rfl rfl⟩

theorem cinv_painterStep (l0 : Logger) (progs : List (List Call)) (s s1 : CSys) (base : Logger)
    (hi : CInv l0 progs s base) (h : painterStep s = some s1) :
    ∃ base1, CInv l0 progs s1 base1 := by
  have hok := hi.painterOK
  cases hpc : s.painter.pc with
  | idle =>
    by_cases hmu : s.mu = none
    · simp only [painterStep, hpc, hmu, if_true, Option.some.injEq] at h
      subst h
      exact ⟨base, cinv_painterLock l0 progs s base hi hmu⟩
    · simp [painterStep, hpc, hmu] at h
  | home =>
    simp only [PainterOK, hpc] at hok
    simp only [painterStep, hpc, Option.some.injEq] at h
    subst h
    refine ⟨base, cinv_painterMid l0 progs s base hi _ (by rw [hpc]; decide) ?_⟩
    refine ⟨hok.1, by rw [hok.1], ?_⟩
    simp [hok.2, fmtPrint]
  | lines =>
    simp only [PainterOK, hpc] at hok
    obtain ⟨hl, hn, hb⟩ := hok
    simp only [painterStep, hpc] at h
    by_cases hg : s.painter.i < s.painter.n
    · rw [if_pos hg] at h
      cases hx : s.logger.lines[s.painter.i]? with
      | none => rw [hx] at h; cases h
      | some line =>
        rw [hx, Option.map_some'] at h
        cases h
        refine ⟨base, cinv_painterMid l0 progs s base hi _ (by rw [hpc]; decide) ?_⟩
        simp only [PainterOK, hpc]
        refine ⟨hl, hn, ?_⟩
        rw [hl] at hx
        rw [hb, List.take_succ, hx]
        simp [fmtPrintln]
    · rw [if_neg hg] at h
      cases h
      refine ⟨base, cinv_painterMid l0 progs s base hi _ (by rw [hpc]; decide) ?_⟩
      simp only [PainterOK]
      refine ⟨hl, ?_⟩
      rw [hb, List.take_of_length_le (by omega)]
  | sep =>
    simp only [PainterOK, hpc] at hok
    simp only [painterStep, hpc, Option.some.injEq] at h
    subst h
    refine ⟨base, cinv_painterMid l0 progs s base hi _ (by rw [hpc]; decide) ?_⟩
    refine ⟨hok.1, by rw [hok.1], ?_⟩
    simp [hok.2, hok.1, fmtPrintln]
  | msgs =>
    simp only [PainterOK, hpc] at hok
    obtain ⟨hl, hs, hb⟩ := hok
    simp only [painterStep, hpc] at h
    cases hx : s.painter.snap[s.painter.i]? with
    | none =>
      rw [hx] at h
      cases h
      refine ⟨base, cinv_painterMid l0 progs s base hi _ (by rw [hpc]; decide) ?_⟩
      simp only [PainterOK]
      refine ⟨hl, ?_⟩
      have hlen : s.painter.snap.length ≤ s.painter.i := by
        by_contra hlt
        rw [List.getElem?_eq_getElem (by omega)] at hx
        cases hx
      rw [hb, List.take_of_length_le hlen, hs, tickWrites_eq]
    | some msg =>
      rw [hx] at h
      cases h
      refine ⟨base, cinv_painterMid l0 progs s base hi _ (by rw [hpc]; decide) ?_⟩
      simp only [PainterOK, hpc]
      refine ⟨hl, hs, ?_⟩
      rw [hb, List.take_succ, hx]
      simp [fmtPrintln]
  | unlock =>
    by_cases hmu : s.mu = none
    · simp [painterStep, hpc, hmu] at h
    · simp only [painterStep, hpc, hmu, if_false, Option.some.injEq] at h
      subst h
      exact ⟨base, cinv_painterUnlock l0 progs s base hi hpc⟩

theorem cinv_step (l0 : Logger) (progs : List (List Call)) (s s1 : CSys) (base : Logger)
    (hi : CInv l0 progs s base) (tid : Tid) (h : cstep s tid = some s1) :
    ∃ base1, CInv l0 progs s1 base1 := by
  cases tid with
  | caller t =>
    simp only [cstep] at h
    cases hth : s.callers[t]? with
    | none => rw [hth] at h; cases h
    | some th =>
      rw [hth] at h
      exact cinv_callerStep l0 progs s s1 base hi t th hth h
  | painter => exact cinv_painterStep l0 progs s s1 base hi h

theorem cinv_new (separator : String) (topLines : List String) (progs : List (List Call)) :
    CInv (NewLogger separator topLines) progs (CSys.new separator topLines progs)
      (NewLogger separator topLines) := by
  have hget : ∀ (t : Nat) (th : Caller), (CSys.new separator topLines progs).callers[t]? = some th →
      ∃ p, progs[t]? = some p ∧ th = { prog := p, pc := .idle, tmp := [] } := by
    intro t th h
    simp only [CSys.new, List.getElem?_map] at h
    cases hp : progs[t]? with
    | none => rw [hp] at h; cases h
    | some p => rw [hp] at h; cases h; exact ⟨p, rfl, rfl⟩
  refine ⟨rfl, ?_, ?_, fun _ => rfl, ?_, ?_, ?_, ?_, ?_, ?_, ?_⟩
  · intro t th h hne
    obtain ⟨p, _, rfl⟩ := hget t th h
    exact absurd rfl hne
  · intro hne
    exact absurd rfl hne
  · intro t th h
    obtain ⟨p, _, rfl⟩ := hget t th h
    exact callerOK_idle _ _ _ rfl
  · exact painterOK_idle _ _ _ rfl
  · intro f hf
    cases hf
  · simp [CSys.new]
  · intro t th h
    obtain ⟨p, hp, rfl⟩ := hget t th h
    simp [CSys.new, hp]
  · intro e he
    cases he
  · simp [CSys.new, Function.comp_def]

theorem cinv_exec (l0 : Logger) (progs : List (List Call)) (s s1 : CSys) (base : Logger)
    (hi : CInv l0 progs s base) (sched : List Tid) (h : cexec s sched = some s1) :
    ∃ base1, CInv l0 progs s1 base1 := by
  induction sched generalizing s base with
  | nil => simp only [cexec, Option.some.injEq] at h; subst h; exact ⟨base, hi⟩
  | cons t ts ih =>
    simp only [cexec] at h
    cases hs : cstep s t with
    | none => rw [hs] at h; cases h
    | some s2 =>
      rw [hs, Option.some_bind] at h
      obtain ⟨base2, hi2⟩ := cinv_step l0 progs s s2 base hi t hs
      exact ih s2 base2 hi2 h

theorem replay_logs (l : Logger) (ms : List String) :
    replay l (ms.map Call.log) = logAll l ms := by
  induction ms generalizing l with
  | nil => rfl
  | cons m ms ih =>
    rw [List.map_cons, replay, logAll, Call.run]
    cases l.Log m with
    | none => rfl
    | some l1 => simp only [Option.some_bind, ih]

theorem sum_prog_zero (cs : List Caller) (h : ∀ th ∈ cs, th.prog = []) :
    (cs.map (fun th => th.prog.length)).sum = 0 := by
  induction cs with
  | nil => rfl
  | cons c cs ih =>
    have hc := h c (List.mem_cons_self _ _)
    have := ih (fun th hth => h th (List.mem_cons_of_mem _ hth))
    simp only [List.map_cons, List.sum_cons, hc, List.length_nil, this]

theorem prog_ne_nil_of_busy (base l : Logger) (th : Caller) (hok : CallerOK base l th)
    (hpc : th.pc ≠ .idle) : th.prog ≠ [] := by
  intro hnil
  cases h : th.pc with
  | idle => exact hpc h
  | locked => simp only [CallerOK, h] at hok; exact hok.1 hnil
  | store =>
    simp only [CallerOK, h] at hok
    obtain ⟨_, _, hp, _⟩ := hok
    rw [hnil] at hp; cases hp
  | check =>
    simp only [CallerOK, h] at hok
    obtain ⟨_, _, hp, _⟩ := hok
    rw [hnil] at hp; cases hp
  | unlock =>
    simp only [CallerOK, h] at hok
    obtain ⟨_, _, hp, _⟩ := hok
    rw [hnil] at hp; cases hp

/-- The only step a goroutine can take without holding the mutex is taking it. -/
theorem step_without_mutex (l0 : Logger) (progs : List (List Call)) (s s1 : CSys)
    (base : Logger) (hi : CInv l0 progs s base) (tid : Tid) (h : cstep s tid = some s1) :
    s.mu = some tid
      ∨ (s.mu = none ∧ s1.mu = some tid ∧ s1.logger = s.logger
          ∧ s1.framesOut = s.framesOut ∧ s1.done = s.done) := by
  cases tid with
  | caller t =>
    simp only [cstep] at h
    cases hth : s.callers[t]? with
    | none => rw [hth] at h; cases h
    | some th =>
      rw [hth] at h
      by_cases hpc : th.pc = .idle
      · right
        rcases th with ⟨prog, pc, tmp⟩
        change pc = .idle at hpc
        subst hpc
        cases prog with
        | nil => simp [callerStep] at h
        | cons c rest =>
          by_cases hmu : s.mu = none
          · simp only [callerStep, hmu, if_true, Option.some.injEq] at h
            subst h
            exact ⟨hmu, rfl, rfl, rfl, rfl⟩
          · simp [callerStep, hmu] at h
      · exact Or.inl (hi.ownC t th hth hpc)
  | painter =>
    by_cases hpc : s.painter.pc = .idle
    · right
      by_cases hmu : s.mu = none
      · simp only [cstep, painterStep, hpc, hmu, if_true, Option.some.injEq] at h
        subst h
        exact ⟨hmu, rfl, rfl, rfl, rfl⟩
      · simp [cstep, painterStep, hpc, hmu] at h
    · exact Or.inl (hi.ownP hpc)

/-- C9: with the mutex as explicit state and one step per statement of `Log`, `UpdateLine`
and the tick, in every schedule a goroutine that is between its lock and its unlock (where all
its reads and writes of the header lines and the tail are) holds the mutex, so at most one is
there, and the only step a goroutine takes without the mutex is taking it; the finished calls, in the order of their unlocks, form a serial order that contains
each producer's calls in that producer's order; whenever the mutex is free, and when all
producers have finished all their calls, the shared state is the result of running the calls
one after the other in that order (for `Log` calls only: the first 10 of the reversed order);
and every frame a tick has written is the frame of the state after some prefix of that
order. -/
theorem C9_mutex_serialises_calls (separator : String) (topLines : List String)
    (progs : List (List Call)) (sched : List Tid) (s : CSys)
    (h : cexec (CSys.new separator topLines progs) sched = some s) :
    (∀ (t : Nat) (th : Caller), s.callers[t]? = some th → th.pc ≠ .idle →
        s.mu = some (.caller t))
      ∧ (s.painter.pc ≠ .idle → s.mu = some .painter)
      ∧ (∀ (tid : Tid) (s1 : CSys), cstep s tid = some s1 →
          s.mu = some tid
            ∨ (s.mu = none ∧ s1.mu = some tid ∧ s1.logger = s.logger
                ∧ s1.framesOut = s.framesOut ∧ s1.done = s.done))
      ∧ ∃ base,
          replay (NewLogger separator topLines) (s.done.map Prod.snd) = some base
          ∧ (∀ e ∈ s.done, e.1 < progs.length)
          ∧ (∀ (t : Nat) (p : List Call), progs[t]? = some p →
              ∃ th, s.callers[t]? = some th
                ∧ p = (s.done.filter (fun e => e.1 = t)).map Prod.snd ++ th.prog)
          ∧ (s.mu = none → s.logger = base)
          ∧ ((∀ th ∈ s.callers, th.prog = []) →
              s.logger = base
                ∧ s.done.length = (progs.map List.length).sum
                ∧ ∀ (t : Nat) (p : List Call), progs[t]? = some p →
                    (s.done.filter (fun e => e.1 = t)).map Prod.snd = p)
          ∧ (∀ ms : List String, s.done.map Prod.snd = ms.map Call.log →
              base.logMessages = ms.reverse.take 10)
          ∧ (∀ f ∈ s.framesOut, ∃ (k : Nat) (lk : Logger), k ≤ s.done.length
              ∧ replay (NewLogger separator topLines) ((s.done.take k).map Prod.snd) = some lk
              ∧ f = tickWrites lk) := by
  obtain ⟨base, hi⟩ := cinv_exec _ progs _ s _ (cinv_new separator topLines progs) sched h
  have horder : ∀ (t : Nat) (p : List Call), progs[t]? = some p →
      ∃ th, s.callers[t]? = some th
        ∧ p = (s.done.filter (fun e => e.1 = t)).map Prod.snd ++ th.prog := by
    intro t p hp
    obtain ⟨hlt, _⟩ := List.getElem?_eq_some.mp hp
    have hlt2 : t < s.callers.length := by rw [hi.len]; exact hlt
    refine ⟨s.callers[t], List.getElem?_eq_getElem hlt2, ?_⟩
    have := hi.order t _ (List.getElem?_eq_getElem hlt2)
    rw [hp] at this
    exact Option.some.inj this
  refine ⟨hi.ownC, hi.ownP, fun tid s1 hs => step_without_mutex _ progs s s1 base hi tid hs,
    base, hi.replayed, hi.tids, horder, ?_, ?_, ?_, hi.framesOK⟩
  · intro hmu
    exact hi.quiet (callers_idle _ progs s base hi (Or.inl hmu))
  · intro hfin
    have hmem : ∀ (t : Nat) (th : Caller), s.callers[t]? = some th → th ∈ s.callers := by
      intro t th hth
      obtain ⟨hl, he⟩ := List.getElem?_eq_some.mp hth
      rw [← he]
      exact List.getElem_mem _
    refine ⟨?_, ?_, ?_⟩
    · apply hi.quiet
      intro t th hth
      by_contra hpc
      exact prog_ne_nil_of_busy base s.logger th (hi.callerOK t th hth) hpc
        (hfin th (hmem t th hth))
    · have := hi.count
      rw [sum_prog_zero s.callers hfin] at this
      omega
    · intro t p hp
      obtain ⟨th, hth, hpe⟩ := horder t p hp
      rw [hpe, hfin th (hmem t th hth), List.append_nil]
  · intro ms hms
    have hr := hi.replayed
    rw [hms, replay_logs, logAll_eq _ ms (NewLogger_tailBounded _ _)] at hr
    cases hr
    simp [NewLogger_eq]

/-- Witness for C9: two producers and the repaint task, interleaved call by call. -/
theorem C9_mutex_serialises_calls_witness :
    ∃ s base, cexec (CSys.new "--" ["H"] [[.log "a", .log "b"], [.log "c"]])
        [.caller 0, .caller 0, .caller 0, .caller 0, .caller 0,
         .painter, .painter, .painter, .painter, .painter, .painter, .painter, .painter,
         .caller 1, .caller 1, .caller 1, .caller 1, .caller 1,
         .caller 0, .caller 0, .caller 0, .caller 0, .caller 0] = some s
      ∧ s.done = [(0, .log "a"), (1, .log "c"), (0, .log "b")]
      ∧ s.framesOut = [["\x1b[H", "H\n", "--\n", "a\n"]]
      ∧ s.logger.logMessages = ["b", "c", "a"]
      ∧ replay (NewLogger "--" ["H"]) (s.done.map Prod.snd) = some base
      ∧ s.logger = base := by
  have hsome : (cexec (CSys.new "--" ["H"] [[.log "a", .log "b"], [.log "c"]])
        [.caller 0, .caller 0, .caller 0, .caller 0, .caller 0,
         .painter, .painter, .painter, .painter, .painter, .painter, .painter, .painter,
         .caller 1, .caller 1, .caller 1, .caller 1, .caller 1,
         .caller 0, .caller 0, .caller 0, .caller 0, .caller 0]).isSome = true := by decide
  obtain ⟨s, hs⟩ := Option.isSome_iff_exists.mp hsome
  obtain ⟨_, _, _, base, hrep, _, _, hfree, _, _, _⟩ :=
    C9_mutex_serialises_calls "--" ["H"] [[.log "a", .log "b"], [.log "c"]] _ s hs
  have hval : (cexec (CSys.new "--" ["H"] [[.log "a", .log "b"], [.log "c"]])
        [.caller 0, .caller 0, .caller 0, .caller 0, .caller 0,
         .painter, .painter, .painter, .painter, .painter, .painter, .painter, .painter,
         .caller 1, .caller 1, .caller 1, .caller 1, .caller 1,
         .caller 0, .caller 0, .caller 0, .caller 0, .caller 0]).map
        (fun s => (s.done, s.framesOut, s.logger.logMessages, s.mu))
      = some ([(0, .log "a"), (1, .log "c"), (0, .log "b")],
          [["\x1b[H", "H\n", "--\n", "a\n"]], ["b", "c", "a"], none) := by decide
  rw [hs] at hval
  simp only [Option.map_some', Option.some.injEq, Prod.mk.injEq] at hval
  obtain ⟨h1, h2, h3, h4⟩ := hval
  exact ⟨s, base, hs, h1, h2, h3, hrep, hfree h4⟩

end Tprint
